import Mathlib

set_option maxHeartbeats 1000000

/-!
Verification development for the Entity-Item bipartite graph core of the
graph-based-recommender-attacks repository.  The definitions below are a
shallow embedding of `gbra/util/ei_graph.py` (class `EIGraph`) and
`gbra/data/network_loader.py` (class `ErdosRenyiLoader`), together with the
behavior of the snap `TUNGraph` methods those files call.  Python exceptions
are modelled by an explicit error type, and methods that mutate the object
return the post-state alongside the outcome, because a Python object survives
an exception raised inside one of its methods.
-/

/-- Error kinds mirroring the Python exceptions the embedded code can raise:
`assertionError` for a failed `assert`, `keyError` for a missing dict key,
`valueError` for an explicit `ValueError`, `snapError` for exceptions raised
inside the snap library (missing node in `AddNode` / `AddEdge` / `DelEdge` /
`GetNI`, missing or truncated topology file), and `ioError` for a missing or
truncated weight sidecar file. -/
inductive PyErr where
  | assertionError
  | keyError
  | valueError
  | snapError
  | ioError
deriving DecidableEq

/-- `EIGraph.nid_is_entity`: a node id is an entity iff it is odd and at least 1. -/
def nid_is_entity (node_id : ℕ) : Bool :=
  (node_id % 2 == 1) && (decide (1 ≤ node_id))

/-- `EIGraph.nid_is_item`: a node id is an item iff it is even and at least 2. -/
def nid_is_item (node_id : ℕ) : Bool :=
  (node_id % 2 == 0) && (decide (2 ≤ node_id))

/-- Canonical unordered representation of a snap edge as a sorted pair. -/
def canon (a b : ℕ) : ℕ × ℕ := (min a b, max a b)

/-- `EIGraph._order_ei`: order a pair of ids as (entity, item). -/
def order_ei (nid1 nid2 : ℕ) : ℕ × ℕ :=
  if nid_is_entity nid2 then (nid2, nid1) else (nid1, nid2)

/-- Model of the snap `TUNGraph` undirected graph: a finite node set together
with a finite set of undirected edges, each stored canonically as a sorted
pair. -/
structure TUNGraph where
  nodes : Finset ℕ
  edges : Finset (ℕ × ℕ)
deriving DecidableEq

/-- `snap.TUNGraph.New()`: the empty graph. -/
def TUNGraph.New : TUNGraph := ⟨∅, ∅⟩

/-- `TUNGraph.AddNode`: raises (snap assertion) if the node already exists. -/
def TUNGraph.AddNode (G : TUNGraph) (n : ℕ) : Except PyErr TUNGraph :=
  if n ∈ G.nodes then .error .snapError else .ok ⟨insert n G.nodes, G.edges⟩

/-- `TUNGraph.IsEdge`: false when either endpoint is not a node. -/
def TUNGraph.IsEdge (G : TUNGraph) (a b : ℕ) : Bool :=
  decide (a ∈ G.nodes) && decide (b ∈ G.nodes) && decide (canon a b ∈ G.edges)

/-- `TUNGraph.AddEdge`: raises if an endpoint is missing; returns -2 and leaves
the graph unchanged if the edge already exists; otherwise inserts the edge and
returns -1. -/
def TUNGraph.AddEdge (G : TUNGraph) (a b : ℕ) : Except PyErr (TUNGraph × Int) :=
  if decide (a ∈ G.nodes) && decide (b ∈ G.nodes) then
    if canon a b ∈ G.edges then .ok (G, -2)
    else .ok (⟨G.nodes, insert (canon a b) G.edges⟩, -1)
  else .error .snapError

/-- `TUNGraph.DelEdge`: raises if an endpoint is missing; silently ignores a
missing edge. -/
def TUNGraph.DelEdge (G : TUNGraph) (a b : ℕ) : Except PyErr TUNGraph :=
  if decide (a ∈ G.nodes) && decide (b ∈ G.nodes) then
    .ok ⟨G.nodes, G.edges.erase (canon a b)⟩
  else .error .snapError

/-- Snapshot of the adjacency of `n`, as the sorted list of its neighbors. -/
def TUNGraph.neighborsOf (G : TUNGraph) (n : ℕ) : List ℕ :=
  ((G.edges.filter (fun p => p.1 = n ∨ p.2 = n)).image
      (fun p => if p.1 = n then p.2 else p.1)).sort (· ≤ ·)

/-- The Python dict `EIGraph._weights` from (entity, item) pairs to numeric
weights, modelled as an insertion-ordered association list with distinct
keys. -/
abbrev WMap := List ((ℕ × ℕ) × ℚ)

/-- Python dict lookup. -/
def wlookup : WMap → ℕ × ℕ → Option ℚ
  | [], _ => none
  | kv :: rest, k => if kv.1 = k then some kv.2 else wlookup rest k

/-- Python dict membership. -/
def wcontains (m : WMap) (k : ℕ × ℕ) : Bool := (wlookup m k).isSome

/-- Python dict assignment: replace in place if the key is present, append
otherwise. -/
def wset (m : WMap) (k : ℕ × ℕ) (v : ℚ) : WMap :=
  if wcontains m k then m.map (fun kv => if kv.1 = k then (k, v) else kv)
  else m ++ [(k, v)]

/-- Python `del d[k]` for a present key (the embedding of `del_edge` raises
`keyError` before calling this when the key is absent). -/
def wdel (m : WMap) (k : ℕ × ℕ) : WMap := m.filter (fun kv => decide (kv.1 ≠ k))

/-- The key list of a weight map. -/
def wkeys (m : WMap) : List (ℕ × ℕ) := m.map Prod.fst

/-- The canonical snap form of the keys of a weight map, as a finite set. -/
def wkeysCanon (m : WMap) : Finset (ℕ × ℕ) :=
  ((wkeys m).map (fun k => canon k.1 k.2)).toFinset

/-- The `EIGraph` object: the underlying snap graph, the two running counters
and the weight dict. -/
structure EIGraph where
  G : TUNGraph
  num_entities : ℕ
  num_items : ℕ
  weights : WMap
deriving DecidableEq

/-- A fresh `EIGraph` before any seeding. -/
def EIGraph.empty : EIGraph := ⟨TUNGraph.New, 0, 0, []⟩

/-- `EIGraph.add_entity`: allocate the next odd id, register it, bump the
counter, return the id. -/
def add_entity (g : EIGraph) : EIGraph × Except PyErr ℕ :=
  let new_id := g.num_entities * 2 + 1
  match g.G.AddNode new_id with
  | .error e => (g, .error e)
  | .ok G2 => ({ g with G := G2, num_entities := g.num_entities + 1 }, .ok new_id)

/-- `EIGraph.add_item`: allocate the next even id, register it, bump the
counter, return the id. -/
def add_item (g : EIGraph) : EIGraph × Except PyErr ℕ :=
  let new_id := (g.num_items + 1) * 2
  match g.G.AddNode new_id with
  | .error e => (g, .error e)
  | .ok G2 => ({ g with G := G2, num_items := g.num_items + 1 }, .ok new_id)

/-- `EIGraph.add_edge`, preserving the statement order of the Python: the kind
assert, the weight-dict write, snap `AddEdge` (which can raise on a missing
node), then `assert res == -1` (which fails when snap returns -2 for an
already-present edge). -/
def add_edge (g : EIGraph) (nid1 nid2 : ℕ) (weight : ℚ) : EIGraph × Except PyErr Unit :=
  if nid_is_entity nid1 != nid_is_entity nid2 then
    let g1 := { g with weights := wset g.weights (order_ei nid1 nid2) weight }
    match g1.G.AddEdge nid1 nid2 with
    | .error e => (g1, .error e)
    | .ok (G2, res) =>
      let g2 := { g1 with G := G2 }
      if res == -1 then (g2, .ok ()) else (g2, .error .assertionError)
  else (g, .error .assertionError)

/-- `EIGraph.del_edge`: the kind assert, `del self._weights[key]` (KeyError on
an absent key), then snap `DelEdge`. -/
def del_edge (g : EIGraph) (nid1 nid2 : ℕ) : EIGraph × Except PyErr Unit :=
  if nid_is_entity nid1 != nid_is_entity nid2 then
    if wcontains g.weights (order_ei nid1 nid2) then
      let g1 := { g with weights := wdel g.weights (order_ei nid1 nid2) }
      match g1.G.DelEdge nid1 nid2 with
      | .error e => (g1, .error e)
      | .ok G2 => ({ g1 with G := G2 }, .ok ())
    else (g, .error .keyError)
  else (g, .error .assertionError)

/-- `EIGraph.is_edge`. -/
def is_edge (g : EIGraph) (nid1 nid2 : ℕ) : Bool := g.G.IsEdge nid1 nid2

/-- `EIGraph.get_edge_weight`: `assert self.is_edge(...)` then dict lookup. -/
def get_edge_weight (g : EIGraph) (nid1 nid2 : ℕ) : Except PyErr ℚ :=
  if is_edge g nid1 nid2 then
    match wlookup g.weights (order_ei nid1 nid2) with
    | some w => .ok w
    | none => .error .keyError
  else .error .assertionError

/-- `EIGraph.get_neighbors`: `GetNI` raises on a node absent from the graph. -/
def get_neighbors (g : EIGraph) (node : ℕ) : Except PyErr (List ℕ) :=
  if node ∈ g.G.nodes then .ok (g.G.neighborsOf node) else .error .snapError

/-- Modelled from the spec: the WeightedSampler utility (`weighted_choice` in
`gbra/util/math_utils.py`, whose source file is not present in the sources).
Given parallel value/weight lists and a threshold `t` drawn uniformly in
`[0, weight_sum)`, it scans the lists accumulating a running sum until the
running sum exceeds the threshold and returns the corresponding value; the
final element absorbs any residual mass.  The caller always passes lists of
equal positive length. -/
def weighted_choice : List ℕ → List ℚ → ℚ → Option ℕ
  | [], _, _ => none
  | [v], _, _ => some v
  | v :: _ :: _, [], _ => some v
  | v :: v2 :: vs, w :: ws, t =>
    if t < w then some v else weighted_choice (v2 :: vs) ws (t - w)

/-- `EIGraph.get_random_neighbor`, with the randomness made explicit: `k`
models the index drawn by `random.choice` in unweighted mode, and `t` models
the threshold drawn uniformly in `[0, weight_sum)` inside `weighted_choice`
in weighted mode. -/
def get_random_neighbor (g : EIGraph) (node : ℕ) (use_weights : Bool) (k : ℕ) (t : ℚ) :
    Except PyErr ℕ :=
  match get_neighbors g node with
  | .error e => .error e
  | .ok nbrs =>
    if nbrs.isEmpty then .error .valueError
    else if !use_weights then
      match nbrs[k % nbrs.length]? with
      | some x => .ok x
      | none => .error .valueError
    else
      match nbrs.mapM (fun nb => get_edge_weight g node nb) with
      | .error e => .error e
      | .ok ws =>
        match weighted_choice nbrs ws t with
        | some x => .ok x
        | none => .error .valueError

/-- `EIGraph.save`: the pair of on-disk artifacts — the snap binary topology
at `filename` and the marshalled weight dict at `filename + '.ei_meta'`.  The
binary encodings are exact (black-box round-trip, per the spec), so an
artifact is modelled as either present and decodable (`some`) or
missing/truncated (`none`). -/
def EIGraph.save (g : EIGraph) : Option TUNGraph × Option WMap :=
  (some g.G, some g.weights)

/-- `EIGraph.load`: decode the topology (snap raises on a missing or truncated
file), scan the restored nodes to rebuild the two counters (asserting that
every node is an entity or an item), then read the sidecar (IOError when
missing, truncated marshal data also raises).  No consistency check between
the sidecar keys and the edge set is performed. -/
def EIGraph.load (topo : Option TUNGraph) (meta : Option WMap) : Except PyErr EIGraph :=
  match topo with
  | none => .error .snapError
  | some G =>
    if ∀ n ∈ G.nodes, nid_is_entity n = true ∨ nid_is_item n = true then
      match meta with
      | none => .error .ioError
      | some w =>
        .ok { G := G,
              num_entities := (G.nodes.filter (fun n => nid_is_entity n = true)).card,
              num_items := (G.nodes.filter (fun n => nid_is_entity n = false)).card,
              weights := w }
    else .error .assertionError

/-- Seeding loop of `EIGraph.__init__`: add `n` entities. -/
def addEntitiesN : ℕ → EIGraph → EIGraph
  | 0, g => g
  | n + 1, g => addEntitiesN n (add_entity g).1

/-- Seeding loop of `EIGraph.__init__`: add `n` items. -/
def addItemsN : ℕ → EIGraph → EIGraph
  | 0, g => g
  | n + 1, g => addItemsN n (add_item g).1

/-- `EIGraph.__init__(num_entities, num_items)`. -/
def EIGraph.init (num_entities num_items : ℕ) : EIGraph :=
  addItemsN num_items (addEntitiesN num_entities EIGraph.empty)

/-- Graph states reachable from an empty or pre-seeded graph by any sequence
of the public mutating operations, keeping the post-state of failed calls as
well (the Python object survives an exception raised by one of its
methods). -/
inductive Reach : EIGraph → Prop where
  | init (ne ni : ℕ) : Reach (EIGraph.init ne ni)
  | addEntity {g : EIGraph} : Reach g → Reach (add_entity g).1
  | addItem {g : EIGraph} : Reach g → Reach (add_item g).1
  | addEdge (a b : ℕ) (w : ℚ) {g : EIGraph} : Reach g → Reach (add_edge g a b w).1
  | delEdge (a b : ℕ) {g : EIGraph} : Reach g → Reach (del_edge g a b).1

/-- Like `Reach`, but `add_edge` is only invoked on ids that are nodes of the
current graph: the "valid mutations" of the spec. -/
inductive ReachV : EIGraph → Prop where
  | init (ne ni : ℕ) : ReachV (EIGraph.init ne ni)
  | addEntity {g : EIGraph} : ReachV g → ReachV (add_entity g).1
  | addItem {g : EIGraph} : ReachV g → ReachV (add_item g).1
  | addEdge (a b : ℕ) (w : ℚ) {g : EIGraph} :
      ReachV g → a ∈ g.G.nodes → b ∈ g.G.nodes → ReachV (add_edge g a b w).1
  | delEdge (a b : ℕ) {g : EIGraph} : ReachV g → ReachV (del_edge g a b).1

/-- The `ErdosRenyiLoader` configuration (the spec's RandomBipartiteLoader). -/
structure ErdosRenyiLoader where
  num_entities : ℕ
  num_items : ℕ
  num_edges : ℕ
deriving DecidableEq

/-- `ErdosRenyiLoader.__init__`: rejects a request for more edges than the
complete bipartite graph can hold, before any graph is built. -/
def ErdosRenyiLoader.new (num_entities num_items num_edges : ℕ) :
    Except PyErr ErdosRenyiLoader :=
  if num_edges > num_entities * num_items then .error .valueError
  else .ok ⟨num_entities, num_items, num_edges⟩

/-- The rejection-sampling loop of `ErdosRenyiLoader.load`, driven by an
explicit list of random draws; each draw is the pair
`(random.randint(0, num_entities - 1), random.randint(0, num_items - 1))`
(both bounds inclusive, as in Python).  Returns `none` when the supplied
draws run out before the loop finishes. -/
def erLoop (g : EIGraph) : ℕ → List (ℕ × ℕ) → Except PyErr (Option EIGraph)
  | 0, _ => .ok (some g)
  | _ + 1, [] => .ok none
  | eleft + 1, (ei, ii) :: rest =>
    let entity_node_id := 2 * ei + 1
    let item_node_id := 2 * ii
    if is_edge g entity_node_id item_node_id then erLoop g (eleft + 1) rest
    else
      match add_edge g entity_node_id item_node_id 1 with
      | (_, .error e) => .error e
      | (g2, .ok _) => erLoop g2 eleft rest

/-- `ErdosRenyiLoader.load`: build the seeded empty graph, then rejection
sample `num_edges` edges using the given stream of draws. -/
def ErdosRenyiLoader.load (L : ErdosRenyiLoader) (draws : List (ℕ × ℕ)) :
    Except PyErr (Option EIGraph) :=
  erLoop (EIGraph.init L.num_entities L.num_items) L.num_edges draws

/-- The entity ids allocated by the first `ne` calls to `add_entity`. -/
def entityNodes (ne : ℕ) : Finset ℕ := (Finset.range ne).image (fun k => k * 2 + 1)

/-- The item ids allocated by the first `ni` calls to `add_item`. -/
def itemNodes (ni : ℕ) : Finset ℕ := (Finset.range ni).image (fun k => (k + 1) * 2)

/-- Structural invariant maintained by arbitrary (including failed) calls of
the public operations: the node set is exactly the allocated entity and item
ids, and every snap edge is the canonical pair of a live entity and a live
item. -/
structure InvCore (g : EIGraph) : Prop where
  nodes_eq : g.G.nodes = entityNodes g.num_entities ∪ itemNodes g.num_items
  edges_ei : ∀ p ∈ g.G.edges, ∃ e i, nid_is_entity e = true ∧ nid_is_item i = true ∧
      e ∈ g.G.nodes ∧ i ∈ g.G.nodes ∧ p = canon e i

/-- Full invariant for valid mutation sequences: additionally, the weight dict
has distinct (entity, item) keys over live nodes and its key set corresponds
exactly to the snap edge set. -/
structure EIInv (g : EIGraph) : Prop where
  nodes_eq : g.G.nodes = entityNodes g.num_entities ∪ itemNodes g.num_items
  keys_ei : ∀ k ∈ wkeys g.weights, nid_is_entity k.1 = true ∧ nid_is_item k.2 = true ∧
      k.1 ∈ g.G.nodes ∧ k.2 ∈ g.G.nodes
  keys_nodup : (wkeys g.weights).Nodup
  edges_eq : g.G.edges = wkeysCanon g.weights

/-- The weight stored for the edge between `a` and `b` (0 when absent; only
used where presence is proved). -/
def edgeW (g : EIGraph) (a b : ℕ) : ℚ := (wlookup g.weights (order_ei a b)).getD 0

/-- Concrete reachable graph shared by several witnesses: one entity `1`, one
item `2`, and the edge between them with weight 1. -/
def gE : EIGraph := (add_edge (EIGraph.init 1 1) 1 2 1).1

/-- C4 counterexample graph: seed one entity, no items, then call
`add_edge(1, 2, 1)`; node 2 does not exist, so snap `AddEdge` raises after the
weight entry was already written. -/
def gBadC4 : EIGraph := (add_edge (EIGraph.init 1 0) 1 2 1).1

/-- The C10 frame property at a graph `g`: `add_entity` returns the fresh id
`2 * entity_count + 1` and `add_item` the fresh id `2 * (item_count + 1)`,
neither live beforehand; each adds exactly that node, bumps only its own
counter and leaves the edge set, the weight dict and the other counter
untouched. -/
def AddNodeFrameSpec (g : EIGraph) : Prop :=
  ((add_entity g).2 = .ok (2 * g.num_entities + 1) ∧
   2 * g.num_entities + 1 ∉ g.G.nodes ∧
   (add_entity g).1.G.nodes = insert (2 * g.num_entities + 1) g.G.nodes ∧
   (add_entity g).1.G.edges = g.G.edges ∧
   (add_entity g).1.weights = g.weights ∧
   (add_entity g).1.num_items = g.num_items ∧
   (add_entity g).1.num_entities = g.num_entities + 1) ∧
  ((add_item g).2 = .ok (2 * (g.num_items + 1)) ∧
   2 * (g.num_items + 1) ∉ g.G.nodes ∧
   (add_item g).1.G.nodes = insert (2 * (g.num_items + 1)) g.G.nodes ∧
   (add_item g).1.G.edges = g.G.edges ∧
   (add_item g).1.weights = g.weights ∧
   (add_item g).1.num_entities = g.num_entities ∧
   (add_item g).1.num_items = g.num_items + 1)

/-- The C8 property at graph `g` and ids `a`, `b`: `del_edge` fails exactly on
a same-kind pair or a non-edge; on success the edge and its weight entry are
both removed — afterwards `is_edge` is false, `get_edge_weight` fails, and the
weight-map domain still equals the edge set (atomicity at the observation
point). -/
def DelEdgeSpec (g : EIGraph) (a b : ℕ) : Prop :=
  ((del_edge g a b).2.isOk = false ↔
    (nid_is_entity a = nid_is_entity b ∨ is_edge g a b = false)) ∧
  ((del_edge g a b).2.isOk = true →
    is_edge (del_edge g a b).1 a b = false ∧
    (get_edge_weight (del_edge g a b).1 a b).isOk = false ∧
    wkeysCanon (del_edge g a b).1.weights = (del_edge g a b).1.G.edges)

/-- The C9 property at `g`, `node`: the neighbor list is empty exactly when the
node has no incident edge; `get_random_neighbor` fails (with the ValueError of
the empty-neighborhood check) exactly in that case; any returned id is a
neighbor; and in weighted mode, when all incident weights are positive, the
thresholds selecting the j-th neighbor are exactly the interval of length
equal to that neighbor's edge weight starting at the sum of the preceding
weights — the weight-proportional draw. -/
def RandomNeighborSpec (g : EIGraph) (node : ℕ) : Prop :=
  (g.G.neighborsOf node = [] ↔ ∀ p ∈ g.G.edges, p.1 ≠ node ∧ p.2 ≠ node) ∧
  (∀ (uw : Bool) (k : ℕ) (t : ℚ), g.G.neighborsOf node = [] →
      get_random_neighbor g node uw k t = .error .valueError) ∧
  (∀ (uw : Bool) (k : ℕ) (t : ℚ),
      (get_random_neighbor g node uw k t).isOk = false ↔ g.G.neighborsOf node = []) ∧
  (∀ (uw : Bool) (k : ℕ) (t : ℚ) (x : ℕ),
      get_random_neighbor g node uw k t = .ok x → x ∈ g.G.neighborsOf node) ∧
  ((∀ nb ∈ g.G.neighborsOf node, 0 < edgeW g node nb) →
    ∀ (j : ℕ) (hj : j < (g.G.neighborsOf node).length) (t : ℚ),
      (((g.G.neighborsOf node).map (fun nb => edgeW g node nb)).take j).sum ≤ t →
      t < (((g.G.neighborsOf node).map (fun nb => edgeW g node nb)).take (j + 1)).sum →
      get_random_neighbor g node true 0 t = .ok ((g.G.neighborsOf node).get ⟨j, hj⟩))

instance {ε α : Type} [DecidableEq ε] [DecidableEq α] : DecidableEq (Except ε α) := fun a b =>
  match a, b with
  | .ok x, .ok y => if h : x = y then .isTrue (by rw [h]) else .isFalse (by simp [h])
  | .error x, .error y => if h : x = y then .isTrue (by rw [h]) else .isFalse (by simp [h])
  | .ok _, .error _ => .isFalse (by simp)
  | .error _, .ok _ => .isFalse (by simp)

lemma nid_entity_iff {n : ℕ} : nid_is_entity n = true ↔ n % 2 = 1 := by
  simp only [nid_is_entity, Bool.and_eq_true, beq_iff_eq, decide_eq_true_eq]
  omega

lemma nid_item_iff {n : ℕ} : nid_is_item n = true ↔ n % 2 = 0 ∧ 2 ≤ n := by
  simp only [nid_is_item, Bool.and_eq_true, beq_iff_eq, decide_eq_true_eq]

lemma entity_false_of_item {n : ℕ} (h : nid_is_item n = true) : nid_is_entity n = false := by
  rw [nid_item_iff] at h
  rw [Bool.eq_false_iff]
  intro hc
  rw [nid_entity_iff] at hc
  omega

lemma item_false_of_entity {n : ℕ} (h : nid_is_entity n = true) : nid_is_item n = false := by
  rw [nid_entity_iff] at h
  rw [Bool.eq_false_iff]
  intro hc
  rw [nid_item_iff] at hc
  omega

lemma canon_comm (a b : ℕ) : canon a b = canon b a := by
  unfold canon
  rw [min_comm, max_comm]

lemma canon_order_ei (a b : ℕ) : canon (order_ei a b).1 (order_ei a b).2 = canon a b := by
  unfold order_ei
  by_cases h : nid_is_entity b <;> simp [h, canon_comm]

lemma canon_cases {x y : ℕ} (p : ℕ × ℕ) (h : canon x y = p) :
    (p.1 = x ∧ p.2 = y) ∨ (p.1 = y ∧ p.2 = x) := by
  unfold canon at h
  rcases le_total x y with hxy | hxy
  · left
    rw [← h]
    exact ⟨min_eq_left hxy, max_eq_right hxy⟩
  · right
    rw [← h]
    exact ⟨min_eq_right hxy, max_eq_left hxy⟩

lemma order_ei_ei {e i : ℕ} (_ : nid_is_entity e = true) (hi : nid_is_item i = true) :
    order_ei e i = (e, i) := by
  unfold order_ei
  rw [entity_false_of_item hi]
  simp

lemma order_ei_ie {e i : ℕ} (he : nid_is_entity e = true) (_ : nid_is_item i = true) :
    order_ei i e = (e, i) := by
  unfold order_ei
  rw [he]
  simp

lemma canon_inj_ei {e i e2 i2 : ℕ} (he : nid_is_entity e = true) (hi : nid_is_item i = true)
    (he2 : nid_is_entity e2 = true) (hi2 : nid_is_item i2 = true)
    (h : canon e i = canon e2 i2) : e = e2 ∧ i = i2 := by
  have h1 := canon_cases (canon e2 i2) h
  have h2 := canon_cases (canon e2 i2) (rfl : canon e2 i2 = canon e2 i2)
  rw [nid_entity_iff] at he he2
  rw [nid_item_iff] at hi hi2
  rcases h1 with ⟨ha, hb⟩ | ⟨ha, hb⟩ <;> rcases h2 with ⟨hc, hd⟩ | ⟨hc, hd⟩ <;>
    exact ⟨by omega, by omega⟩

lemma wlookup_isSome_iff {m : WMap} {k : ℕ × ℕ} :
    (wlookup m k).isSome = true ↔ k ∈ wkeys m := by
  induction m with
  | nil => simp [wlookup, wkeys]
  | cons kv rest ih =>
    by_cases h : kv.1 = k
    · simp [wlookup, wkeys, h]
    · have h2 : ¬ k = kv.1 := fun hh => h hh.symm
      simp [wlookup, wkeys, h, h2, ih]

lemma wcontains_iff {m : WMap} {k : ℕ × ℕ} : wcontains m k = true ↔ k ∈ wkeys m := by
  unfold wcontains
  exact wlookup_isSome_iff

lemma wlookup_mem {m : WMap} {k : ℕ × ℕ} (h : k ∈ wkeys m) : ∃ v, wlookup m k = some v := by
  exact Option.isSome_iff_exists.1 (wlookup_isSome_iff.2 h)

lemma wlookup_replace (m : WMap) (k : ℕ × ℕ) (v : ℚ) (h : k ∈ wkeys m) :
    wlookup (m.map (fun kv => if kv.1 = k then (k, v) else kv)) k = some v := by
  induction m with
  | nil => simp [wkeys] at h
  | cons kv rest ih =>
    by_cases hk : kv.1 = k
    · simp [wlookup, hk]
    · have h' : k ∈ wkeys rest := by
        rcases (by simpa [wkeys] using h : k = kv.1 ∨ k ∈ wkeys rest) with h1 | h1
        · exact absurd h1.symm hk
        · exact h1
      simp [wlookup, hk, ih h']

lemma wlookup_append_right (m : WMap) (k : ℕ × ℕ) (v : ℚ) (h : ¬ k ∈ wkeys m) :
    wlookup (m ++ [(k, v)]) k = some v := by
  induction m with
  | nil => simp [wlookup]
  | cons kv rest ih =>
    have hco : wkeys (kv :: rest) = kv.1 :: wkeys rest := rfl
    rw [hco] at h
    simp only [List.mem_cons, not_or] at h
    obtain ⟨hk1, h'⟩ := h
    have hk : ¬ kv.1 = k := fun hh => hk1 hh.symm
    simp [wlookup, hk, ih h']

lemma wlookup_wset (m : WMap) (k : ℕ × ℕ) (v : ℚ) : wlookup (wset m k v) k = some v := by
  unfold wset
  by_cases hc : wcontains m k = true
  · rw [if_pos hc]
    exact wlookup_replace m k v (wcontains_iff.1 hc)
  · rw [if_neg hc]
    exact wlookup_append_right m k v (fun h => hc (wcontains_iff.2 h))

lemma wkeys_wset_mem (m : WMap) (k : ℕ × ℕ) (v : ℚ) (h : k ∈ wkeys m) :
    wkeys (wset m k v) = wkeys m := by
  unfold wset
  rw [if_pos (wcontains_iff.2 h)]
  unfold wkeys
  rw [List.map_map]
  apply List.map_congr_left
  intro kv _
  by_cases hk : kv.1 = k <;> simp [hk]

lemma wkeys_wset_not_mem (m : WMap) (k : ℕ × ℕ) (v : ℚ) (h : ¬ k ∈ wkeys m) :
    wkeys (wset m k v) = wkeys m ++ [k] := by
  unfold wset
  rw [if_neg (fun hc => h (wcontains_iff.1 hc))]
  unfold wkeys
  simp

lemma wkeys_wdel (m : WMap) (k : ℕ × ℕ) :
    wkeys (wdel m k) = (wkeys m).filter (fun x => decide (x ≠ k)) := by
  unfold wdel wkeys
  induction m with
  | nil => rfl
  | cons kv rest ih =>
    simp only [List.map_cons, List.filter_cons]
    by_cases hk : decide (kv.1 ≠ k) = true
    · rw [if_pos hk, if_pos hk, List.map_cons, ih]
    · rw [if_neg hk, if_neg hk, ih]

lemma nodup_wset (m : WMap) (k : ℕ × ℕ) (v : ℚ) (h : (wkeys m).Nodup) :
    (wkeys (wset m k v)).Nodup := by
  by_cases hm : k ∈ wkeys m
  · rw [wkeys_wset_mem m k v hm]
    exact h
  · rw [wkeys_wset_not_mem m k v hm]
    simp [List.nodup_append, h, hm]

lemma nodup_wdel (m : WMap) (k : ℕ × ℕ) (h : (wkeys m).Nodup) :
    (wkeys (wdel m k)).Nodup := by
  rw [wkeys_wdel]
  exact h.filter _

lemma mem_wkeysCanon {m : WMap} {p : ℕ × ℕ} :
    p ∈ wkeysCanon m ↔ ∃ k ∈ wkeys m, canon k.1 k.2 = p := by
  unfold wkeysCanon
  simp

lemma wkeysCanon_wset_mem (m : WMap) (k : ℕ × ℕ) (v : ℚ) (h : k ∈ wkeys m) :
    wkeysCanon (wset m k v) = wkeysCanon m := by
  unfold wkeysCanon
  rw [wkeys_wset_mem m k v h]

lemma wkeysCanon_wset_not_mem (m : WMap) (k : ℕ × ℕ) (v : ℚ) (h : ¬ k ∈ wkeys m) :
    wkeysCanon (wset m k v) = insert (canon k.1 k.2) (wkeysCanon m) := by
  unfold wkeysCanon
  rw [wkeys_wset_not_mem m k v h]
  rw [List.map_append, List.toFinset_append]
  simp only [List.map_cons, List.map_nil, List.toFinset_cons, List.toFinset_nil,
    insert_emptyc_eq]
  rw [Finset.insert_eq, Finset.union_comm]

lemma wkeysCanon_wdel (m : WMap) (k : ℕ × ℕ)
    (hall : ∀ x ∈ wkeys m, nid_is_entity x.1 = true ∧ nid_is_item x.2 = true)
    (hk : nid_is_entity k.1 = true) (hki : nid_is_item k.2 = true) :
    wkeysCanon (wdel m k) = (wkeysCanon m).erase (canon k.1 k.2) := by
  ext p
  rw [Finset.mem_erase]
  unfold wkeysCanon
  rw [wkeys_wdel]
  simp only [List.mem_toFinset, List.mem_map, List.mem_filter, decide_eq_true_eq]
  constructor
  · rintro ⟨x, ⟨hxm, hxk⟩, rfl⟩
    refine ⟨?_, x, hxm, rfl⟩
    intro hcan
    obtain ⟨hx1, hx2⟩ := hall x hxm
    obtain ⟨he, hi⟩ := canon_inj_ei hx1 hx2 hk hki hcan
    exact hxk (Prod.ext he hi)
  · rintro ⟨hne, x, hxm, rfl⟩
    refine ⟨x, ⟨hxm, ?_⟩, rfl⟩
    intro hxe
    apply hne
    rw [hxe]

lemma mem_entityNodes {n ne : ℕ} : n ∈ entityNodes ne ↔ ∃ k < ne, n = k * 2 + 1 := by
  unfold entityNodes
  simp [eq_comm]

lemma mem_itemNodes {n ni : ℕ} : n ∈ itemNodes ni ↔ ∃ k < ni, n = (k + 1) * 2 := by
  unfold itemNodes
  simp [eq_comm]

lemma entity_of_mem_entityNodes {n ne : ℕ} (h : n ∈ entityNodes ne) :
    nid_is_entity n = true := by
  rw [mem_entityNodes] at h
  obtain ⟨k, _, rfl⟩ := h
  rw [nid_entity_iff]
  omega

lemma item_of_mem_itemNodes {n ni : ℕ} (h : n ∈ itemNodes ni) : nid_is_item n = true := by
  rw [mem_itemNodes] at h
  obtain ⟨k, _, rfl⟩ := h
  rw [nid_item_iff]
  omega

lemma entityNodes_succ (ne : ℕ) : entityNodes (ne + 1) = insert (ne * 2 + 1) (entityNodes ne) := by
  unfold entityNodes
  rw [Finset.range_succ, Finset.image_insert]

lemma itemNodes_succ (ni : ℕ) : itemNodes (ni + 1) = insert ((ni + 1) * 2) (itemNodes ni) := by
  unfold itemNodes
  rw [Finset.range_succ, Finset.image_insert]

lemma entity_fresh (ne ni : ℕ) : ne * 2 + 1 ∉ entityNodes ne ∪ itemNodes ni := by
  rw [Finset.mem_union, mem_entityNodes, mem_itemNodes]
  rintro (⟨k, hk, he⟩ | ⟨k, hk, he⟩) <;> omega

lemma item_fresh (ne ni : ℕ) : (ni + 1) * 2 ∉ entityNodes ne ∪ itemNodes ni := by
  rw [Finset.mem_union, mem_entityNodes, mem_itemNodes]
  rintro (⟨k, hk, he⟩ | ⟨k, hk, he⟩) <;> omega

lemma EIInv.toCore {g : EIGraph} (h : EIInv g) : InvCore g := by
  refine ⟨h.nodes_eq, ?_⟩
  intro p hp
  rw [h.edges_eq, mem_wkeysCanon] at hp
  obtain ⟨k, hk, rfl⟩ := hp
  obtain ⟨h1, h2, h3, h4⟩ := h.keys_ei k hk
  exact ⟨k.1, k.2, h1, h2, h3, h4, rfl⟩

lemma mem_nodes_entity_or_item {g : EIGraph} (hn : g.G.nodes = entityNodes g.num_entities ∪ itemNodes g.num_items)
    {n : ℕ} (h : n ∈ g.G.nodes) : nid_is_entity n = true ∨ nid_is_item n = true := by
  rw [hn, Finset.mem_union] at h
  rcases h with h | h
  · exact Or.inl (entity_of_mem_entityNodes h)
  · exact Or.inr (item_of_mem_itemNodes h)

lemma item_of_node_not_entity {g : EIGraph}
    (hn : g.G.nodes = entityNodes g.num_entities ∪ itemNodes g.num_items)
    {n : ℕ} (h : n ∈ g.G.nodes) (he : nid_is_entity n = false) : nid_is_item n = true := by
  rcases mem_nodes_entity_or_item hn h with h1 | h1
  · rw [h1] at he
    exact absurd he (by simp)
  · exact h1

lemma is_edge_parts {g : EIGraph} {a b : ℕ} (h : is_edge g a b = true) :
    a ∈ g.G.nodes ∧ b ∈ g.G.nodes ∧ canon a b ∈ g.G.edges := by
  unfold is_edge TUNGraph.IsEdge at h
  simp only [Bool.and_eq_true, decide_eq_true_eq] at h
  exact ⟨h.1.1, h.1.2, h.2⟩

lemma is_edge_intro {g : EIGraph} {a b : ℕ} (h1 : a ∈ g.G.nodes) (h2 : b ∈ g.G.nodes)
    (h3 : canon a b ∈ g.G.edges) : is_edge g a b = true := by
  unfold is_edge TUNGraph.IsEdge
  simp [h1, h2, h3]

lemma AddEdge_dup {G : TUNGraph} {a b : ℕ} (h1 : a ∈ G.nodes) (h2 : b ∈ G.nodes)
    (h3 : canon a b ∈ G.edges) : G.AddEdge a b = .ok (G, -2) := by
  unfold TUNGraph.AddEdge
  have hc : (decide (a ∈ G.nodes) && decide (b ∈ G.nodes)) = true := by simp [h1, h2]
  rw [if_pos hc, if_pos h3]

lemma AddEdge_new {G : TUNGraph} {a b : ℕ} (h1 : a ∈ G.nodes) (h2 : b ∈ G.nodes)
    (h3 : canon a b ∉ G.edges) :
    G.AddEdge a b = .ok (⟨G.nodes, insert (canon a b) G.edges⟩, -1) := by
  unfold TUNGraph.AddEdge
  have hc : (decide (a ∈ G.nodes) && decide (b ∈ G.nodes)) = true := by simp [h1, h2]
  rw [if_pos hc, if_neg h3]

lemma AddEdge_missing {G : TUNGraph} {a b : ℕ} (h : ¬ (a ∈ G.nodes ∧ b ∈ G.nodes)) :
    G.AddEdge a b = .error .snapError := by
  unfold TUNGraph.AddEdge
  have hc : ¬ ((decide (a ∈ G.nodes) && decide (b ∈ G.nodes)) = true) := by
    simp only [Bool.and_eq_true, decide_eq_true_eq]
    exact h
  rw [if_neg hc]

lemma DelEdge_ok {G : TUNGraph} {a b : ℕ} (h1 : a ∈ G.nodes) (h2 : b ∈ G.nodes) :
    G.DelEdge a b = .ok ⟨G.nodes, G.edges.erase (canon a b)⟩ := by
  unfold TUNGraph.DelEdge
  have hc : (decide (a ∈ G.nodes) && decide (b ∈ G.nodes)) = true := by simp [h1, h2]
  rw [if_pos hc]

lemma DelEdge_missing {G : TUNGraph} {a b : ℕ} (h : ¬ (a ∈ G.nodes ∧ b ∈ G.nodes)) :
    G.DelEdge a b = .error .snapError := by
  unfold TUNGraph.DelEdge
  have hc : ¬ ((decide (a ∈ G.nodes) && decide (b ∈ G.nodes)) = true) := by
    simp only [Bool.and_eq_true, decide_eq_true_eq]
    exact h
  rw [if_neg hc]

lemma add_edge_same_kind {g : EIGraph} {a b : ℕ} {w : ℚ}
    (h : nid_is_entity a = nid_is_entity b) :
    add_edge g a b w = (g, .error .assertionError) := by
  unfold add_edge
  rw [h]
  simp

lemma add_edge_dup {g : EIGraph} {a b : ℕ} {w : ℚ}
    (hne : (nid_is_entity a != nid_is_entity b) = true)
    (hab : is_edge g a b = true) :
    add_edge g a b w =
      ({ g with weights := wset g.weights (order_ei a b) w }, .error .assertionError) := by
  obtain ⟨h1, h2, h3⟩ := is_edge_parts hab
  simp only [add_edge, if_pos hne, AddEdge_dup h1 h2 h3]
  rfl

lemma add_edge_new {g : EIGraph} {a b : ℕ} {w : ℚ}
    (hne : (nid_is_entity a != nid_is_entity b) = true)
    (h1 : a ∈ g.G.nodes) (h2 : b ∈ g.G.nodes) (h3 : canon a b ∉ g.G.edges) :
    add_edge g a b w =
      ({ g with G := ⟨g.G.nodes, insert (canon a b) g.G.edges⟩,
                weights := wset g.weights (order_ei a b) w }, .ok ()) := by
  simp only [add_edge, if_pos hne, AddEdge_new h1 h2 h3]
  rfl

lemma add_edge_missing {g : EIGraph} {a b : ℕ} {w : ℚ}
    (hne : (nid_is_entity a != nid_is_entity b) = true)
    (h : ¬ (a ∈ g.G.nodes ∧ b ∈ g.G.nodes)) :
    add_edge g a b w =
      ({ g with weights := wset g.weights (order_ei a b) w }, .error .snapError) := by
  simp only [add_edge, if_pos hne, AddEdge_missing h]

lemma del_edge_same_kind {g : EIGraph} {a b : ℕ}
    (h : nid_is_entity a = nid_is_entity b) :
    del_edge g a b = (g, .error .assertionError) := by
  unfold del_edge
  rw [h]
  simp

lemma del_edge_missing_key {g : EIGraph} {a b : ℕ}
    (hne : (nid_is_entity a != nid_is_entity b) = true)
    (h : ¬ order_ei a b ∈ wkeys g.weights) :
    del_edge g a b = (g, .error .keyError) := by
  have hc : ¬ (wcontains g.weights (order_ei a b) = true) := fun hh => h (wcontains_iff.1 hh)
  simp only [del_edge, if_pos hne, if_neg hc]

lemma del_edge_found {g : EIGraph} {a b : ℕ}
    (hne : (nid_is_entity a != nid_is_entity b) = true)
    (hk : order_ei a b ∈ wkeys g.weights)
    (h1 : a ∈ g.G.nodes) (h2 : b ∈ g.G.nodes) :
    del_edge g a b =
      ({ g with G := ⟨g.G.nodes, g.G.edges.erase (canon a b)⟩,
                weights := wdel g.weights (order_ei a b) }, .ok ()) := by
  have hc : wcontains g.weights (order_ei a b) = true := wcontains_iff.2 hk
  simp only [del_edge, if_pos hne, if_pos hc, DelEdge_ok h1 h2]

lemma del_edge_found_missing_node {g : EIGraph} {a b : ℕ}
    (hne : (nid_is_entity a != nid_is_entity b) = true)
    (hk : order_ei a b ∈ wkeys g.weights)
    (h : ¬ (a ∈ g.G.nodes ∧ b ∈ g.G.nodes)) :
    del_edge g a b =
      ({ g with weights := wdel g.weights (order_ei a b) }, .error .snapError) := by
  have hc : wcontains g.weights (order_ei a b) = true := wcontains_iff.2 hk
  simp only [del_edge, if_pos hne, if_pos hc, DelEdge_missing h]

lemma order_ei_mem {a b : ℕ} {s : Finset ℕ} (h1 : (order_ei a b).1 ∈ s)
    (h2 : (order_ei a b).2 ∈ s) : a ∈ s ∧ b ∈ s := by
  unfold order_ei at h1 h2
  by_cases hb : nid_is_entity b = true
  · rw [if_pos hb] at h1 h2
    exact ⟨h2, h1⟩
  · rw [if_neg hb] at h1 h2
    exact ⟨h1, h2⟩

lemma order_ei_key {g : EIGraph}
    (hn : g.G.nodes = entityNodes g.num_entities ∪ itemNodes g.num_items)
    {a b : ℕ} (hne : (nid_is_entity a != nid_is_entity b) = true)
    (h1 : a ∈ g.G.nodes) (h2 : b ∈ g.G.nodes) :
    ∃ e i, nid_is_entity e = true ∧ nid_is_item i = true ∧ e ∈ g.G.nodes ∧ i ∈ g.G.nodes ∧
      order_ei a b = (e, i) ∧ canon a b = canon e i := by
  rw [bne_iff_ne] at hne
  by_cases ha : nid_is_entity a = true
  · have hb : nid_is_entity b = false := by
      cases hbb : nid_is_entity b
      · rfl
      · exact absurd (ha.trans hbb.symm) hne
    have hbi : nid_is_item b = true := item_of_node_not_entity hn h2 hb
    exact ⟨a, b, ha, hbi, h1, h2, order_ei_ei ha hbi, rfl⟩
  · have ha' : nid_is_entity a = false := by
      cases haa : nid_is_entity a
      · rfl
      · exact absurd haa ha
    have hai : nid_is_item a = true := item_of_node_not_entity hn h1 ha'
    have hb : nid_is_entity b = true := by
      cases hbb : nid_is_entity b
      · exact absurd (ha'.trans hbb.symm) hne
      · rfl
    exact ⟨b, a, hb, hai, h2, h1, order_ei_ie hb hai, canon_comm a b⟩

lemma add_entity_eq {g : EIGraph}
    (hn : g.G.nodes = entityNodes g.num_entities ∪ itemNodes g.num_items) :
    add_entity g =
      ({ g with G := ⟨insert (g.num_entities * 2 + 1) g.G.nodes, g.G.edges⟩,
                num_entities := g.num_entities + 1 }, .ok (g.num_entities * 2 + 1)) := by
  have hfresh : g.num_entities * 2 + 1 ∉ g.G.nodes := by
    rw [hn]
    exact entity_fresh _ _
  simp only [add_entity, TUNGraph.AddNode, if_neg hfresh]

lemma add_item_eq {g : EIGraph}
    (hn : g.G.nodes = entityNodes g.num_entities ∪ itemNodes g.num_items) :
    add_item g =
      ({ g with G := ⟨insert ((g.num_items + 1) * 2) g.G.nodes, g.G.edges⟩,
                num_items := g.num_items + 1 }, .ok ((g.num_items + 1) * 2)) := by
  have hfresh : (g.num_items + 1) * 2 ∉ g.G.nodes := by
    rw [hn]
    exact item_fresh _ _
  simp only [add_item, TUNGraph.AddNode, if_neg hfresh]

lemma eiInv_add_entity {g : EIGraph} (h : EIInv g) : EIInv (add_entity g).1 := by
  rw [add_entity_eq h.nodes_eq]
  refine ⟨?_, ?_, h.keys_nodup, h.edges_eq⟩
  · show insert (g.num_entities * 2 + 1) g.G.nodes =
      entityNodes (g.num_entities + 1) ∪ itemNodes g.num_items
    rw [entityNodes_succ, Finset.insert_union, ← h.nodes_eq]
  · intro k hk
    obtain ⟨h1, h2, h3, h4⟩ := h.keys_ei k hk
    exact ⟨h1, h2, Finset.mem_insert_of_mem h3, Finset.mem_insert_of_mem h4⟩

lemma eiInv_add_item {g : EIGraph} (h : EIInv g) : EIInv (add_item g).1 := by
  rw [add_item_eq h.nodes_eq]
  refine ⟨?_, ?_, h.keys_nodup, h.edges_eq⟩
  · show insert ((g.num_items + 1) * 2) g.G.nodes =
      entityNodes g.num_entities ∪ itemNodes (g.num_items + 1)
    rw [itemNodes_succ, Finset.union_insert, ← h.nodes_eq]
  · intro k hk
    obtain ⟨h1, h2, h3, h4⟩ := h.keys_ei k hk
    exact ⟨h1, h2, Finset.mem_insert_of_mem h3, Finset.mem_insert_of_mem h4⟩

lemma invCore_add_entity {g : EIGraph} (h : InvCore g) : InvCore (add_entity g).1 := by
  rw [add_entity_eq h.nodes_eq]
  refine ⟨?_, ?_⟩
  · show insert (g.num_entities * 2 + 1) g.G.nodes =
      entityNodes (g.num_entities + 1) ∪ itemNodes g.num_items
    rw [entityNodes_succ, Finset.insert_union, ← h.nodes_eq]
  · intro p hp
    obtain ⟨e, i, h1, h2, h3, h4, h5⟩ := h.edges_ei p hp
    exact ⟨e, i, h1, h2, Finset.mem_insert_of_mem h3, Finset.mem_insert_of_mem h4, h5⟩

lemma invCore_add_item {g : EIGraph} (h : InvCore g) : InvCore (add_item g).1 := by
  rw [add_item_eq h.nodes_eq]
  refine ⟨?_, ?_⟩
  · show insert ((g.num_items + 1) * 2) g.G.nodes =
      entityNodes g.num_entities ∪ itemNodes (g.num_items + 1)
    rw [itemNodes_succ, Finset.union_insert, ← h.nodes_eq]
  · intro p hp
    obtain ⟨e, i, h1, h2, h3, h4, h5⟩ := h.edges_ei p hp
    exact ⟨e, i, h1, h2, Finset.mem_insert_of_mem h3, Finset.mem_insert_of_mem h4, h5⟩

lemma bool_eq_of_not_bne {x y : Bool} (h : ¬ (x != y) = true) : x = y := by
  revert h
  cases x <;> cases y <;> simp

lemma eiInv_add_edge {g : EIGraph} {a b : ℕ} {w : ℚ} (h : EIInv g)
    (ha : a ∈ g.G.nodes) (hb : b ∈ g.G.nodes) : EIInv (add_edge g a b w).1 := by
  by_cases hne : (nid_is_entity a != nid_is_entity b) = true
  · obtain ⟨e, i, hee, hii, hen, hin, hoek, hcan⟩ := order_ei_key h.nodes_eq hne ha hb
    by_cases hdup : canon a b ∈ g.G.edges
    · rw [add_edge_dup hne (is_edge_intro ha hb hdup)]
      have hkmem : order_ei a b ∈ wkeys g.weights := by
        rw [h.edges_eq, mem_wkeysCanon] at hdup
        obtain ⟨k, hk, hkc⟩ := hdup
        obtain ⟨hk1, hk2, _, _⟩ := h.keys_ei k hk
        rw [hcan] at hkc
        obtain ⟨hke, hki⟩ := canon_inj_ei hk1 hk2 hee hii hkc
        have hkei : k = (e, i) := Prod.ext hke hki
        rw [hoek, ← hkei]
        exact hk
      refine ⟨h.nodes_eq, ?_, ?_, ?_⟩
      · intro k hk
        rw [wkeys_wset_mem _ _ _ hkmem] at hk
        exact h.keys_ei k hk
      · show (wkeys (wset g.weights (order_ei a b) w)).Nodup
        rw [wkeys_wset_mem _ _ _ hkmem]
        exact h.keys_nodup
      · show g.G.edges = wkeysCanon (wset g.weights (order_ei a b) w)
        rw [wkeysCanon_wset_mem _ _ _ hkmem]
        exact h.edges_eq
    · have hknot : ¬ order_ei a b ∈ wkeys g.weights := by
        intro hk
        apply hdup
        rw [h.edges_eq, mem_wkeysCanon]
        exact ⟨order_ei a b, hk, canon_order_ei a b⟩
      rw [add_edge_new hne ha hb hdup]
      refine ⟨h.nodes_eq, ?_, ?_, ?_⟩
      · intro k hk
        rw [wkeys_wset_not_mem _ _ _ hknot] at hk
        rcases List.mem_append.1 hk with hk1 | hk1
        · exact h.keys_ei k hk1
        · have hks : k = order_ei a b := by simpa using hk1
          rw [hks, hoek]
          exact ⟨hee, hii, hen, hin⟩
      · show (wkeys (wset g.weights (order_ei a b) w)).Nodup
        rw [wkeys_wset_not_mem _ _ _ hknot]
        simp [List.nodup_append, h.keys_nodup, hknot]
      · show insert (canon a b) g.G.edges = wkeysCanon (wset g.weights (order_ei a b) w)
        rw [wkeysCanon_wset_not_mem _ _ _ hknot, canon_order_ei, h.edges_eq]
  · rw [add_edge_same_kind (bool_eq_of_not_bne hne)]
    exact h

lemma invCore_add_edge {g : EIGraph} {a b : ℕ} {w : ℚ} (h : InvCore g) :
    InvCore (add_edge g a b w).1 := by
  by_cases hne : (nid_is_entity a != nid_is_entity b) = true
  · by_cases hmem : a ∈ g.G.nodes ∧ b ∈ g.G.nodes
    · obtain ⟨ha, hb⟩ := hmem
      obtain ⟨e, i, hee, hii, hen, hin, hoek, hcan⟩ := order_ei_key h.nodes_eq hne ha hb
      by_cases hdup : canon a b ∈ g.G.edges
      · rw [add_edge_dup hne (is_edge_intro ha hb hdup)]
        exact ⟨h.nodes_eq, h.edges_ei⟩
      · rw [add_edge_new hne ha hb hdup]
        refine ⟨h.nodes_eq, ?_⟩
        intro p hp
        rcases Finset.mem_insert.1 hp with hp1 | hp1
        · exact ⟨e, i, hee, hii, hen, hin, hp1.trans hcan⟩
        · exact h.edges_ei p hp1
    · rw [add_edge_missing hne hmem]
      exact ⟨h.nodes_eq, h.edges_ei⟩
  · rw [add_edge_same_kind (bool_eq_of_not_bne hne)]
    exact h

lemma eiInv_del_edge {g : EIGraph} {a b : ℕ} (h : EIInv g) : EIInv (del_edge g a b).1 := by
  by_cases hne : (nid_is_entity a != nid_is_entity b) = true
  · by_cases hk : order_ei a b ∈ wkeys g.weights
    · obtain ⟨hk1, hk2, hk3, hk4⟩ := h.keys_ei _ hk
      obtain ⟨ha, hb⟩ := order_ei_mem hk3 hk4
      rw [del_edge_found hne hk ha hb]
      refine ⟨h.nodes_eq, ?_, ?_, ?_⟩
      · intro k hkm
        rw [wkeys_wdel] at hkm
        exact h.keys_ei k (List.mem_of_mem_filter hkm)
      · show (wkeys (wdel g.weights (order_ei a b))).Nodup
        exact nodup_wdel _ _ h.keys_nodup
      · show g.G.edges.erase (canon a b) = wkeysCanon (wdel g.weights (order_ei a b))
        rw [wkeysCanon_wdel _ _ (fun x hx => ⟨(h.keys_ei x hx).1, (h.keys_ei x hx).2.1⟩) hk1 hk2]
        rw [canon_order_ei, h.edges_eq]
    · rw [del_edge_missing_key hne hk]
      exact h
  · rw [del_edge_same_kind (bool_eq_of_not_bne hne)]
    exact h

lemma invCore_del_edge {g : EIGraph} {a b : ℕ} (h : InvCore g) : InvCore (del_edge g a b).1 := by
  by_cases hne : (nid_is_entity a != nid_is_entity b) = true
  · by_cases hk : order_ei a b ∈ wkeys g.weights
    · by_cases hmem : a ∈ g.G.nodes ∧ b ∈ g.G.nodes
      · rw [del_edge_found hne hk hmem.1 hmem.2]
        refine ⟨h.nodes_eq, ?_⟩
        intro p hp
        exact h.edges_ei p (Finset.mem_of_mem_erase hp)
      · rw [del_edge_found_missing_node hne hk hmem]
        exact ⟨h.nodes_eq, h.edges_ei⟩
    · rw [del_edge_missing_key hne hk]
      exact h
  · rw [del_edge_same_kind (bool_eq_of_not_bne hne)]
    exact h

lemma eiInv_empty : EIInv EIGraph.empty := by
  refine ⟨?_, ?_, ?_, ?_⟩
  · show (∅ : Finset ℕ) = entityNodes 0 ∪ itemNodes 0
    simp [entityNodes, itemNodes]
  · intro k hk
    simp [wkeys, EIGraph.empty] at hk
  · show (wkeys ([] : WMap)).Nodup
    simp [wkeys]
  · rfl

lemma eiInv_addEntitiesN (n : ℕ) {g : EIGraph} (h : EIInv g) : EIInv (addEntitiesN n g) := by
  induction n generalizing g with
  | zero => exact h
  | succ k ih => exact ih (eiInv_add_entity h)

lemma eiInv_addItemsN (n : ℕ) {g : EIGraph} (h : EIInv g) : EIInv (addItemsN n g) := by
  induction n generalizing g with
  | zero => exact h
  | succ k ih => exact ih (eiInv_add_item h)

lemma eiInv_init (ne ni : ℕ) : EIInv (EIGraph.init ne ni) :=
  eiInv_addItemsN ni (eiInv_addEntitiesN ne eiInv_empty)

lemma reachV_eiInv {g : EIGraph} (h : ReachV g) : EIInv g := by
  induction h with
  | init ne ni => exact eiInv_init ne ni
  | addEntity _ ih => exact eiInv_add_entity ih
  | addItem _ ih => exact eiInv_add_item ih
  | addEdge a b w _ ha hb ih => exact eiInv_add_edge ih ha hb
  | delEdge a b _ ih => exact eiInv_del_edge ih

lemma reach_invCore {g : EIGraph} (h : Reach g) : InvCore g := by
  induction h with
  | init ne ni => exact (eiInv_init ne ni).toCore
  | addEntity _ ih => exact invCore_add_entity ih
  | addItem _ ih => exact invCore_add_item ih
  | addEdge a b w _ ih => exact invCore_add_edge ih
  | delEdge a b _ ih => exact invCore_del_edge ih

lemma filter_entity_nodes (ne ni : ℕ) :
    (entityNodes ne ∪ itemNodes ni).filter (fun n => nid_is_entity n = true) = entityNodes ne := by
  ext n
  simp only [Finset.mem_filter, Finset.mem_union]
  constructor
  · rintro ⟨h1 | h1, h2⟩
    · exact h1
    · rw [entity_false_of_item (item_of_mem_itemNodes h1)] at h2
      exact absurd h2 (by simp)
  · intro h
    exact ⟨Or.inl h, entity_of_mem_entityNodes h⟩

lemma filter_item_nodes (ne ni : ℕ) :
    (entityNodes ne ∪ itemNodes ni).filter (fun n => nid_is_entity n = false) = itemNodes ni := by
  ext n
  simp only [Finset.mem_filter, Finset.mem_union]
  constructor
  · rintro ⟨h1 | h1, h2⟩
    · rw [entity_of_mem_entityNodes h1] at h2
      exact absurd h2 (by simp)
    · exact h1
  · intro h
    exact ⟨Or.inr h, entity_false_of_item (item_of_mem_itemNodes h)⟩

lemma card_entityNodes (ne : ℕ) : (entityNodes ne).card = ne := by
  unfold entityNodes
  rw [Finset.card_image_of_injective _ (fun x y h => by omega), Finset.card_range]

lemma card_itemNodes (ni : ℕ) : (itemNodes ni).card = ni := by
  unfold itemNodes
  rw [Finset.card_image_of_injective _ (fun x y h => by omega), Finset.card_range]

/-- C1: in every graph state reachable from an empty or pre-seeded graph via
the public operations (including failed calls), every snap edge joins exactly
one entity id (odd, at least 1) and one item id (even, at least 2); no edge
joins two ids of the same kind. -/
theorem c1_edges_bipartite (g : EIGraph) (hg : Reach g) :
    ∀ p ∈ g.G.edges, (nid_is_entity p.1 = true ∧ nid_is_item p.2 = true) ∨
      (nid_is_item p.1 = true ∧ nid_is_entity p.2 = true) := by
  intro p hp
  obtain ⟨e, i, he, hi, _, _, hcan⟩ := (reach_invCore hg).edges_ei p hp
  rcases canon_cases p hcan.symm with ⟨h1, h2⟩ | ⟨h1, h2⟩
  · exact Or.inl ⟨by rw [h1]; exact he, by rw [h2]; exact hi⟩
  · exact Or.inr ⟨by rw [h1]; exact hi, by rw [h2]; exact he⟩

/-- Witness for C1 at a concrete reachable one-edge graph and its edge (1, 2). -/
theorem c1_witness :
    (nid_is_entity (1, 2).1 = true ∧ nid_is_item (1, 2).2 = true) ∨
      (nid_is_item (1, 2).1 = true ∧ nid_is_entity (1, 2).2 = true) :=
  c1_edges_bipartite gE (Reach.addEdge 1 2 1 (Reach.init 1 1)) (1, 2) (by decide)

/-- C2: for a graph built by valid mutations, loading the saved artifact pair
returns a graph equal to the original (same snap graph, counters and weight
dict), and the counters equal the number of live nodes of each kind. -/
theorem c2_save_load_round_trip (g : EIGraph) (hg : ReachV g) :
    EIGraph.load (g.save).1 (g.save).2 = .ok g ∧
    g.num_entities = (g.G.nodes.filter (fun n => nid_is_entity n = true)).card ∧
    g.num_items = (g.G.nodes.filter (fun n => nid_is_item n = true)).card := by
  have h := reachV_eiInv hg
  have hall : ∀ n ∈ g.G.nodes, nid_is_entity n = true ∨ nid_is_item n = true :=
    fun n hn => mem_nodes_entity_or_item h.nodes_eq hn
  have hce : (g.G.nodes.filter (fun n => nid_is_entity n = true)).card = g.num_entities := by
    rw [h.nodes_eq, filter_entity_nodes, card_entityNodes]
  have hci : (g.G.nodes.filter (fun n => nid_is_entity n = false)).card = g.num_items := by
    rw [h.nodes_eq, filter_item_nodes, card_itemNodes]
  have hitem : g.G.nodes.filter (fun n => nid_is_item n = true) =
      g.G.nodes.filter (fun n => nid_is_entity n = false) := by
    apply Finset.filter_congr
    intro n hn
    exact ⟨fun hi => by simp [entity_false_of_item hi],
           fun hf => by simp [item_of_node_not_entity h.nodes_eq hn (by simpa using hf)]⟩
  refine ⟨?_, hce.symm, by rw [hitem, hci]⟩
  show EIGraph.load (some g.G) (some g.weights) = .ok g
  simp only [EIGraph.load]
  rw [if_pos hall]
  show Except.ok
      { G := g.G,
        num_entities := (g.G.nodes.filter (fun n => nid_is_entity n = true)).card,
        num_items := (g.G.nodes.filter (fun n => nid_is_entity n = false)).card,
        weights := g.weights } = Except.ok g
  rw [hce, hci]

/-- Witness for C2 at a concrete seeded graph. -/
theorem c2_witness :
    EIGraph.load ((EIGraph.init 2 3).save).1 ((EIGraph.init 2 3).save).2 =
      .ok (EIGraph.init 2 3) ∧
    (EIGraph.init 2 3).num_entities =
      ((EIGraph.init 2 3).G.nodes.filter (fun n => nid_is_entity n = true)).card ∧
    (EIGraph.init 2 3).num_items =
      ((EIGraph.init 2 3).G.nodes.filter (fun n => nid_is_item n = true)).card :=
  c2_save_load_round_trip (EIGraph.init 2 3) (ReachV.init 2 3)

/-- C3 counterexample: on the reachable graph `gE`, which already has the edge
(1, 2), the call `add_edge 1 2 5` does not succeed: snap `AddEdge` returns -2
and `assert res == -1` fails, so the claim that re-adding an existing edge
succeeds is false on the code. -/
theorem c3_counterexample :
    is_edge gE 1 2 = true ∧ (add_edge gE 1 2 5).2 = .error .assertionError := by
  constructor
  · decide
  · decide

/-- C3 amended: re-adding an existing (entity, item) edge raises an assertion
error (snap `AddEdge` returns -2 and `assert res == -1` fails), but the weight
dict entry has already been overwritten before the failure, so afterwards
`get_edge_weight` returns the new weight and the node and edge structure is
unchanged. -/
theorem c3_amended (g : EIGraph) (e i : ℕ) (w1 : ℚ)
    (he : nid_is_entity e = true) (hi : nid_is_item i = true)
    (hedge : is_edge g e i = true) :
    (add_edge g e i w1).2 = .error .assertionError ∧
    (add_edge g e i w1).1.G = g.G ∧
    get_edge_weight (add_edge g e i w1).1 e i = .ok w1 := by
  have hne : (nid_is_entity e != nid_is_entity i) = true := by
    rw [entity_false_of_item hi, he]
    rfl
  rw [add_edge_dup hne hedge]
  refine ⟨rfl, rfl, ?_⟩
  have hedge2 : is_edge { g with weights := wset g.weights (order_ei e i) w1 } e i = true :=
    hedge
  unfold get_edge_weight
  rw [if_pos hedge2]
  show (match wlookup (wset g.weights (order_ei e i) w1) (order_ei e i) with
        | some w => Except.ok w
        | none => Except.error PyErr.keyError) = Except.ok w1
  rw [wlookup_wset]

/-- Witness for C3 amended, at the concrete graph `gE`. -/
theorem c3_amended_witness :
    (add_edge gE 1 2 5).2 = .error .assertionError ∧
    (add_edge gE 1 2 5).1.G = gE.G ∧
    get_edge_weight (add_edge gE 1 2 5).1 1 2 = .ok 5 :=
  c3_amended gE 1 2 5 (by decide) (by decide) (by decide)

/-- C4 counterexample: `gBadC4` is reachable via the public operations (one
failed `add_edge` on a node id not in the graph), yet the domain of its weight
map does not match its edge set: the weight entry for (1, 2) is orphaned. -/
theorem c4_counterexample :
    Reach gBadC4 ∧ wkeysCanon gBadC4.weights ≠ gBadC4.G.edges ∧
    (add_edge (EIGraph.init 1 0) 1 2 1).2 = .error .snapError := by
  refine ⟨Reach.addEdge 1 2 1 (Reach.init 1 0), ?_, ?_⟩
  · decide
  · decide

/-- C4 amended: at every state reachable via the public operations in which
every `add_edge` call names only live nodes (failed same-kind and
duplicate-edge calls included), the canonical key set of the weight map equals
the edge set exactly, and each edge has exactly one weight entry (the key list
has no duplicates).  A failed `add_edge` naming an absent node breaks this by
leaving an orphan weight entry. -/
theorem c4_amended (g : EIGraph) (hg : ReachV g) :
    wkeysCanon g.weights = g.G.edges ∧ (wkeys g.weights).Nodup := by
  have h := reachV_eiInv hg
  exact ⟨h.edges_eq.symm, h.keys_nodup⟩

/-- Witness for C4 amended at the concrete graph `gE`. -/
theorem c4_amended_witness :
    wkeysCanon gE.weights = gE.G.edges ∧ (wkeys gE.weights).Nodup :=
  c4_amended gE (ReachV.addEdge 1 2 1 (ReachV.init 1 1) (by decide) (by decide))

set_option maxRecDepth 40000 in
/-- C5: the bug in `ErdosRenyiLoader`.  The constructor check works (1001 >
20 * 50 is rejected, 60 is accepted before any graph is built), but `load`
draws `item_node_id = 2 * randint(0, num_items - 1)`, which can be 0 — not a
node of the graph — so the very first draw `(0, 0)` makes `add_edge(1, 0)`
raise inside snap `AddEdge` and `load` crashes instead of returning a
70-node, 60-edge graph. -/
theorem c5_loader_bug :
    ErdosRenyiLoader.new 20 50 1001 = .error .valueError ∧
    ErdosRenyiLoader.new 20 50 60 = .ok ⟨20, 50, 60⟩ ∧
    ErdosRenyiLoader.load ⟨20, 50, 60⟩ [(0, 0)] = .error .snapError := by
  refine ⟨by decide, by decide, by decide⟩

/-- C7: `add_edge` on two entities or two items always fails with the kind
assertion and returns the graph unchanged. -/
theorem c7_add_edge_same_kind_fails (g : EIGraph) (a b : ℕ) (w : ℚ)
    (h : (nid_is_entity a = true ∧ nid_is_entity b = true) ∨
         (nid_is_item a = true ∧ nid_is_item b = true)) :
    add_edge g a b w = (g, .error .assertionError) := by
  apply add_edge_same_kind
  rcases h with ⟨h1, h2⟩ | ⟨h1, h2⟩
  · rw [h1, h2]
  · rw [entity_false_of_item h1, entity_false_of_item h2]

/-- Witness for C7: two entities on a seeded graph. -/
theorem c7_witness :
    add_edge (EIGraph.init 2 0) 1 3 1 = (EIGraph.init 2 0, .error .assertionError) :=
  c7_add_edge_same_kind_fails (EIGraph.init 2 0) 1 3 1 (Or.inl ⟨by decide, by decide⟩)

/-- C10: the frame property of `add_entity` and `add_item` holds at every
reachable graph state. -/
theorem c10_add_node_frame (g : EIGraph) (hg : Reach g) : AddNodeFrameSpec g := by
  have hc := reach_invCore hg
  have he : 2 * g.num_entities + 1 = g.num_entities * 2 + 1 := by ring
  have hi : 2 * (g.num_items + 1) = (g.num_items + 1) * 2 := by ring
  unfold AddNodeFrameSpec
  rw [add_entity_eq hc.nodes_eq, add_item_eq hc.nodes_eq, he, hi]
  refine ⟨⟨rfl, ?_, rfl, rfl, rfl, rfl, rfl⟩, rfl, ?_, rfl, rfl, rfl, rfl, rfl⟩
  · rw [hc.nodes_eq]
    exact entity_fresh _ _
  · rw [hc.nodes_eq]
    exact item_fresh _ _

/-- Witness for C10 at the empty pre-seeded graph. -/
theorem c10_witness : Reach (EIGraph.init 0 0) ∧ AddNodeFrameSpec (EIGraph.init 0 0) :=
  ⟨Reach.init 0 0, c10_add_node_frame (EIGraph.init 0 0) (Reach.init 0 0)⟩

/-- C6 counterexample: a topology artifact with no edges paired with a sidecar
holding a weight entry for (1, 2) loads successfully, although the sidecar key
set does not match the stored edge set — `load` performs no consistency check
between the two artifacts. -/
theorem c6_counterexample :
    (EIGraph.load (some TUNGraph.New) (some [((1, 2), (5 : ℚ))])).isOk = true ∧
    wkeysCanon [((1, 2), (5 : ℚ))] ≠ TUNGraph.New.edges := by
  refine ⟨by decide, by decide⟩

/-- C6 amended: `load` reads both artifacts and fails when either is missing
or truncated (the topology through snap, the sidecar through the file open and
marshal decode), but it never compares the sidecar key set with the edge set:
a mismatched artifact pair loads successfully. -/
theorem c6_amended :
    (∀ m : Option WMap, (EIGraph.load none m).isOk = false) ∧
    (∀ G0 : TUNGraph, (EIGraph.load (some G0) none).isOk = false) ∧
    (EIGraph.load (some TUNGraph.New) (some [((1, 2), (5 : ℚ))])).isOk = true := by
  refine ⟨fun m => rfl, fun G0 => ?_, by decide⟩
  simp only [EIGraph.load]
  by_cases h : ∀ n ∈ G0.nodes, nid_is_entity n = true ∨ nid_is_item n = true
  · rw [if_pos h]
    rfl
  · rw [if_neg h]
    rfl

lemma is_edge_key_mem {g : EIGraph} (h : EIInv g) {a b : ℕ}
    (hne : (nid_is_entity a != nid_is_entity b) = true)
    (hedge : is_edge g a b = true) : order_ei a b ∈ wkeys g.weights := by
  obtain ⟨ha, hb, hcanmem⟩ := is_edge_parts hedge
  obtain ⟨e, i, hee, hii, _, _, hoek, hcan⟩ := order_ei_key h.nodes_eq hne ha hb
  rw [h.edges_eq, mem_wkeysCanon] at hcanmem
  obtain ⟨k, hkm, hkc⟩ := hcanmem
  obtain ⟨hk1, hk2, _, _⟩ := h.keys_ei k hkm
  rw [hcan] at hkc
  obtain ⟨hke, hki⟩ := canon_inj_ei hk1 hk2 hee hii hkc
  have hkei : k = (e, i) := Prod.ext hke hki
  rw [hoek, ← hkei]
  exact hkm

/-- C8: the `del_edge` contract holds at every graph built by valid
mutations. -/
theorem c8_del_edge (g : EIGraph) (hg : ReachV g) (a b : ℕ) : DelEdgeSpec g a b := by
  have h := reachV_eiInv hg
  unfold DelEdgeSpec
  by_cases hne : (nid_is_entity a != nid_is_entity b) = true
  · by_cases hk : order_ei a b ∈ wkeys g.weights
    · obtain ⟨hk1, hk2, hk3, hk4⟩ := h.keys_ei _ hk
      obtain ⟨ha, hb⟩ := order_ei_mem hk3 hk4
      have hcanmem : canon a b ∈ g.G.edges := by
        rw [h.edges_eq, mem_wkeysCanon]
        exact ⟨order_ei a b, hk, canon_order_ei a b⟩
      have hinv2 := eiInv_del_edge (a := a) (b := b) h
      rw [del_edge_found hne hk ha hb] at hinv2 ⊢
      constructor
      · constructor
        · intro habs
          exact absurd habs (by simp [Except.isOk, Except.toBool])
        · rintro (hsame | hie)
          · exact absurd hsame (bne_iff_ne.1 hne)
          · rw [is_edge_intro ha hb hcanmem] at hie
            exact absurd hie (by simp)
      · intro _
        have hie2 : is_edge
            ({ g with G := ⟨g.G.nodes, g.G.edges.erase (canon a b)⟩,
                      weights := wdel g.weights (order_ei a b) }) a b = false := by
          unfold is_edge TUNGraph.IsEdge
          simp [Finset.not_mem_erase]
        refine ⟨hie2, ?_, hinv2.edges_eq.symm⟩
        unfold get_edge_weight
        rw [if_neg (by rw [hie2]; exact fun hh => Bool.noConfusion hh)]
        rfl
    · have hie : is_edge g a b = false := by
        cases hiee : is_edge g a b
        · rfl
        · exact absurd (is_edge_key_mem h hne hiee) hk
      rw [del_edge_missing_key hne hk]
      constructor
      · simp [Except.isOk, Except.toBool, hie]
      · intro habs
        exact absurd habs (by simp [Except.isOk, Except.toBool])
  · have heq := bool_eq_of_not_bne hne
    rw [del_edge_same_kind heq]
    constructor
    · simp [Except.isOk, Except.toBool, heq]
    · intro habs
      exact absurd habs (by simp [Except.isOk, Except.toBool])

/-- Witness for C8 at the concrete graph `gE` and its edge (1, 2). -/
theorem c8_witness : ReachV gE ∧ DelEdgeSpec gE 1 2 :=
  ⟨ReachV.addEdge 1 2 1 (ReachV.init 1 1) (by decide) (by decide),
   c8_del_edge gE (ReachV.addEdge 1 2 1 (ReachV.init 1 1) (by decide) (by decide)) 1 2⟩

lemma canon_of_le {a b : ℕ} (h : a ≤ b) : canon a b = (a, b) := by
  unfold canon
  rw [min_eq_left h, max_eq_right h]

lemma canon_idem (a b : ℕ) : canon (canon a b).1 (canon a b).2 = canon a b := by
  rw [canon_of_le]
  · exact min_le_max

lemma mem_neighborsOf {G : TUNGraph} {n x : ℕ} :
    x ∈ G.neighborsOf n ↔
      ∃ p ∈ G.edges, (p.1 = n ∨ p.2 = n) ∧ (if p.1 = n then p.2 else p.1) = x := by
  unfold TUNGraph.neighborsOf
  rw [Finset.mem_sort]
  simp only [Finset.mem_image, Finset.mem_filter]
  constructor
  · rintro ⟨p, ⟨hp, hcond⟩, rfl⟩
    exact ⟨p, hp, hcond, rfl⟩
  · rintro ⟨p, hp, hcond, rfl⟩
    exact ⟨p, ⟨hp, hcond⟩, rfl⟩

lemma edges_pair {g : EIGraph} (h : EIInv g) {p : ℕ × ℕ} (hp : p ∈ g.G.edges) :
    canon p.1 p.2 = p ∧ p.1 ∈ g.G.nodes ∧ p.2 ∈ g.G.nodes ∧
    (nid_is_entity p.1 != nid_is_entity p.2) = true := by
  obtain ⟨e, i, hee, hii, hen, hin, hcan⟩ := h.toCore.edges_ei p hp
  subst hcan
  refine ⟨canon_idem e i, ?_, ?_, ?_⟩
  · rcases canon_cases (canon e i) rfl with ⟨h1, _⟩ | ⟨h1, _⟩ <;> rw [h1] <;> assumption
  · rcases canon_cases (canon e i) rfl with ⟨_, h2⟩ | ⟨_, h2⟩ <;> rw [h2] <;> assumption
  · rcases canon_cases (canon e i) rfl with ⟨h1, h2⟩ | ⟨h1, h2⟩ <;>
      rw [h1, h2, hee, entity_false_of_item hii] <;> rfl

lemma neighbor_canon {g : EIGraph} (h : EIInv g) {n x : ℕ} (hx : x ∈ g.G.neighborsOf n) :
    canon n x ∈ g.G.edges ∧ n ∈ g.G.nodes ∧ x ∈ g.G.nodes ∧
    (nid_is_entity n != nid_is_entity x) = true := by
  rw [mem_neighborsOf] at hx
  obtain ⟨p, hp, hcond, hval⟩ := hx
  obtain ⟨hcp, hp1, hp2, hbne⟩ := edges_pair h hp
  by_cases hpn : p.1 = n
  · rw [if_pos hpn] at hval
    subst hval
    rw [← hpn]
    exact ⟨by rw [hcp]; exact hp, hp1, hp2, hbne⟩
  · rw [if_neg hpn] at hval
    have hp2n : p.2 = n := by
      rcases hcond with hc | hc
      · exact absurd hc hpn
      · exact hc
    subst hval
    rw [← hp2n]
    refine ⟨by rw [canon_comm, hcp]; exact hp, hp2, hp1, ?_⟩
    rw [bne_iff_ne] at hbne ⊢
    exact Ne.symm hbne

lemma get_edge_weight_neighbor {g : EIGraph} (h : EIInv g) {n x : ℕ}
    (hx : x ∈ g.G.neighborsOf n) :
    get_edge_weight g n x = .ok (edgeW g n x) := by
  obtain ⟨hcan, hn, hxn, hbne⟩ := neighbor_canon h hx
  have hedge : is_edge g n x = true := is_edge_intro hn hxn hcan
  have hkmem : order_ei n x ∈ wkeys g.weights := is_edge_key_mem h hbne hedge
  obtain ⟨v, hv⟩ := wlookup_mem hkmem
  unfold get_edge_weight edgeW
  rw [if_pos hedge, hv]
  rfl

lemma mapM_get_edge_weight {g : EIGraph} (h : EIInv g) (n : ℕ) (l : List ℕ)
    (hall : ∀ x ∈ l, x ∈ g.G.neighborsOf n) :
    l.mapM (fun nb => get_edge_weight g n nb) = .ok (l.map (fun nb => edgeW g n nb)) := by
  induction l with
  | nil => rfl
  | cons a t ih =>
    rw [List.mapM_cons, get_edge_weight_neighbor h (hall a (List.mem_cons_self a t)),
      ih (fun x hx => hall x (List.mem_cons_of_mem a hx))]
    rfl

lemma weighted_choice_isSome (vs : List ℕ) (hvs : vs ≠ []) (ws : List ℚ) (t : ℚ) :
    (weighted_choice vs ws t).isSome = true := by
  induction vs generalizing ws t with
  | nil => exact absurd rfl hvs
  | cons v vt ih =>
    cases vt with
    | nil => rfl
    | cons v2 vr =>
      cases ws with
      | nil => rfl
      | cons w wr =>
        simp only [weighted_choice]
        by_cases hlt : t < w
        · rw [if_pos hlt]
          rfl
        · rw [if_neg hlt]
          exact ih (by simp) wr (t - w)

lemma weighted_choice_mem {vs : List ℕ} {ws : List ℚ} {t : ℚ} {x : ℕ}
    (h : weighted_choice vs ws t = some x) : x ∈ vs := by
  induction vs generalizing ws t with
  | nil => simp [weighted_choice] at h
  | cons v vt ih =>
    cases vt with
    | nil =>
      have hx : v = x := by
        have : some v = some x := h
        injection this
      rw [← hx]
      exact List.mem_cons_self _ _
    | cons v2 vr =>
      cases ws with
      | nil =>
        have hx : v = x := by
          have : some v = some x := h
          injection this
        rw [← hx]
        exact List.mem_cons_self _ _
      | cons w wr =>
        simp only [weighted_choice] at h
        by_cases hlt : t < w
        · rw [if_pos hlt] at h
          injection h with h2
          rw [← h2]
          exact List.mem_cons_self _ _
        · rw [if_neg hlt] at h
          exact List.mem_cons_of_mem _ (ih h)

lemma weighted_choice_take (vs : List ℕ) (ws : List ℚ) (hw : ∀ w ∈ ws, 0 < w)
    (hlen : ws.length = vs.length) :
    ∀ (j : ℕ) (hj : j < vs.length) (t : ℚ),
      (ws.take j).sum ≤ t → t < (ws.take (j + 1)).sum →
      weighted_choice vs ws t = some (vs.get ⟨j, hj⟩) := by
  induction vs generalizing ws with
  | nil =>
    intro j hj
    exact absurd hj (by simp)
  | cons v vt ih =>
    intro j hj t h1 h2
    cases ws with
    | nil => simp at hlen
    | cons w wr =>
      cases j with
      | zero =>
        have hlt : t < w := by simpa using h2
        cases vt with
        | nil => rfl
        | cons v2 vr =>
          simp only [weighted_choice]
          rw [if_pos hlt]
          rfl
      | succ k =>
        cases vt with
        | nil => exact absurd hj (by simp)
        | cons v2 vr =>
          have hw' : ∀ x ∈ wr, 0 < x := fun x hx => hw x (List.mem_cons_of_mem _ hx)
          have hlen' : wr.length = (v2 :: vr).length := by simpa using hlen
          have hsum0 : 0 ≤ (wr.take k).sum :=
            List.sum_nonneg (fun x hx => le_of_lt (hw' x (List.take_subset _ _ hx)))
          have ht1 : ((w :: wr).take (k + 1)).sum = w + (wr.take k).sum := by
            rw [List.take_succ_cons, List.sum_cons]
          have ht2 : ((w :: wr).take (k + 2)).sum = w + (wr.take (k + 1)).sum := by
            rw [List.take_succ_cons, List.sum_cons]
          rw [ht1] at h1
          rw [ht2] at h2
          have h1' : (wr.take k).sum ≤ t - w := by linarith
          have h2' : t - w < (wr.take (k + 1)).sum := by linarith
          have hge : ¬ t < w := by linarith
          simp only [weighted_choice]
          rw [if_neg hge]
          exact ih wr hw' hlen' k (by simpa using hj) (t - w) h1' h2'

/-- C9: the random-neighbor contract holds at every node of every graph built
by valid mutations. -/
theorem c9_random_neighbor (g : EIGraph) (hg : ReachV g) (node : ℕ)
    (hnode : node ∈ g.G.nodes) : RandomNeighborSpec g node := by
  have h := reachV_eiInv hg
  have hget : get_neighbors g node = .ok (g.G.neighborsOf node) := by
    unfold get_neighbors
    rw [if_pos hnode]
  have herr : ∀ (uw : Bool) (k : ℕ) (t : ℚ), g.G.neighborsOf node = [] →
      get_random_neighbor g node uw k t = .error .valueError := by
    intro uw k t hemp
    simp only [get_random_neighbor, hget, hemp, List.isEmpty_nil, if_true]
  refine ⟨?_, herr, ?_, ?_, ?_⟩
  · constructor
    · intro hemp p hp
      constructor
      · intro hc
        have hmm : (if p.1 = node then p.2 else p.1) ∈ g.G.neighborsOf node :=
          mem_neighborsOf.2 ⟨p, hp, Or.inl hc, rfl⟩
        rw [hemp] at hmm
        exact absurd hmm (List.not_mem_nil _)
      · intro hc
        have hmm : (if p.1 = node then p.2 else p.1) ∈ g.G.neighborsOf node :=
          mem_neighborsOf.2 ⟨p, hp, Or.inr hc, rfl⟩
        rw [hemp] at hmm
        exact absurd hmm (List.not_mem_nil _)
    · intro hall
      cases hemp : g.G.neighborsOf node with
      | nil => rfl
      | cons a l =>
        have ha : a ∈ g.G.neighborsOf node := by
          rw [hemp]
          exact List.mem_cons_self _ _
        rw [mem_neighborsOf] at ha
        obtain ⟨p, hp, hcond, _⟩ := ha
        rcases hcond with hc | hc
        · exact absurd hc (hall p hp).1
        · exact absurd hc (hall p hp).2
  · intro uw k t
    cases hemp : g.G.neighborsOf node with
    | nil =>
      rw [herr uw k t hemp]
      simp [Except.isOk, Except.toBool]
    | cons a l =>
      have hmemsub : ∀ z ∈ a :: l, z ∈ g.G.neighborsOf node := by
        intro z hz
        rw [hemp]
        exact hz
      have hoktrue : (get_random_neighbor g node uw k t).isOk = true := by
        cases uw
        · simp only [get_random_neighbor, hget, hemp, List.isEmpty_cons, Bool.not_false,
            if_true, if_false, Bool.false_eq_true]
          have hlt : k % (a :: l).length < (a :: l).length := Nat.mod_lt _ (by simp)
          rw [List.getElem?_eq_getElem hlt]
          rfl
        · simp only [get_random_neighbor, hget, hemp, List.isEmpty_cons, Bool.not_true,
            if_false, Bool.false_eq_true]
          simp only [mapM_get_edge_weight h node (a :: l) hmemsub]
          obtain ⟨x, hx⟩ := Option.isSome_iff_exists.1
            (weighted_choice_isSome (a :: l) (by simp) ((a :: l).map fun nb => edgeW g node nb) t)
          rw [hx]
          rfl
      constructor
      · intro habs
        rw [hoktrue] at habs
        exact absurd habs (by simp)
      · intro hh
        exact absurd hh (by simp)
  · intro uw k t x hx
    cases hemp : g.G.neighborsOf node with
    | nil =>
      rw [herr uw k t hemp] at hx
      exact absurd hx (by simp)
    | cons a l =>
      have hmemsub : ∀ z ∈ a :: l, z ∈ g.G.neighborsOf node := by
        intro z hz
        rw [hemp]
        exact hz
      cases uw
      · simp only [get_random_neighbor, hget, hemp, List.isEmpty_cons, Bool.not_false,
          if_true, if_false, Bool.false_eq_true] at hx
        have hlt : k % (a :: l).length < (a :: l).length := Nat.mod_lt _ (by simp)
        rw [List.getElem?_eq_getElem hlt] at hx
        have hxy : (a :: l)[k % (a :: l).length] = x := by
          have hinj : Except.ok (ε := PyErr) ((a :: l)[k % (a :: l).length]) = Except.ok x := hx
          injection hinj
        rw [← hxy]
        exact List.getElem_mem hlt
      · simp only [get_random_neighbor, hget, hemp, List.isEmpty_cons, Bool.not_true,
          if_false, Bool.false_eq_true] at hx
        simp only [mapM_get_edge_weight h node (a :: l) hmemsub] at hx
        cases hwc : weighted_choice (a :: l) ((a :: l).map fun nb => edgeW g node nb) t with
        | none =>
          rw [hwc] at hx
          exact absurd hx (by simp)
        | some y =>
          rw [hwc] at hx
          have hxy : y = x := by
            have hinj : Except.ok (ε := PyErr) y = Except.ok x := hx
            injection hinj
          rw [← hxy]
          exact weighted_choice_mem hwc
  · intro hpos j hj t h1 h2
    have hie : (g.G.neighborsOf node).isEmpty = false := by
      cases hemp : g.G.neighborsOf node
      · rw [hemp] at hj
        exact absurd hj (by simp)
      · rfl
    have hw : ∀ w ∈ (g.G.neighborsOf node).map (fun nb => edgeW g node nb), 0 < w := by
      intro w hwm
      obtain ⟨nb, hnb, rfl⟩ := List.mem_map.1 hwm
      exact hpos nb hnb
    have hlen : ((g.G.neighborsOf node).map (fun nb => edgeW g node nb)).length =
        (g.G.neighborsOf node).length := List.length_map _ _
    simp only [get_random_neighbor, hget, hie, Bool.not_true, if_false, Bool.false_eq_true]
    simp only [mapM_get_edge_weight h node _ (fun x hx => hx)]
    rw [weighted_choice_take (g.G.neighborsOf node) _ hw hlen j hj t h1 h2]

/-- Witness for C9 at the concrete graph `gE` and its entity node 1. -/
theorem c9_witness : ReachV gE ∧ 1 ∈ gE.G.nodes ∧ RandomNeighborSpec gE 1 :=
  ⟨ReachV.addEdge 1 2 1 (ReachV.init 1 1) (by decide) (by decide), by decide,
   c9_random_neighbor gE
     (ReachV.addEdge 1 2 1 (ReachV.init 1 1) (by decide) (by decide)) 1 (by decide)⟩
